import Mathlib

/-!
Verification development for the portfolio page script
(src/script/script.js).  The file shallowly embeds the pieces of the
script with non-trivial logic:

* the rate limiters `throttle` (lines 15-31) and `debounce` (lines 34-40),
  modelled as event-loop runs over timestamped call lists;
* the active-section tracker `updateActiveNavigation` / `updateNavLinks`
  (lines 155-177), modelled as a fold over the section list acting on a
  tracker state;
* the navbar background update `updateNavbarBackground` (lines 179-184),
  modelled with an explicit null check that surfaces the TypeError the
  script would raise when the nav element is absent;
* the field validator `validateField` (lines 238-273) together with the
  blur/input wiring of `setupFormValidation` (lines 227-236).

JavaScript strings are modelled as Lean `String`s and all character-level
work is done structurally on `String.data`, so every definition evaluates
by kernel reduction.  Times are natural numbers (milliseconds, as produced
by `Date.now()`), scroll offsets are integers.
-/

namespace Portfolio

/-- CONFIG.navOffset (script.js line 9): offset added to `window.scrollY`
before comparing against section bounds. -/
def navOffset : Int := 80

/-- A page section as seen by the tracker: its `id` attribute, its
`offsetTop` and its `offsetHeight` (script.js lines 158-161). -/
structure Section where
  id : String
  top : Int
  height : Int
deriving DecidableEq, Repr

/-- A navigation link: its `href` attribute and whether the `active`
CSS class is currently present. -/
structure NavLink where
  href : String
  active : Bool
deriving DecidableEq, Repr

/-- The tracker state: `this.currentSection` (initialised to the empty
string in the constructor, script.js line 57) together with the nav
links and their `active` flags. -/
structure TrackerState where
  currentSection : String
  navLinks : List NavLink
deriving DecidableEq, Repr

/-- JS `href.substring(1)` (script.js line 174): drop the first
character of the href, leaving the fragment. -/
def fragment (s : String) : String := String.mk (s.data.drop 1)

/-- The section test of script.js line 163:
`scrollPosition >= sectionTop && scrollPosition < sectionTop + sectionHeight`. -/
def matchesPos (pos : Int) (s : Section) : Bool :=
  decide (s.top ≤ pos) && decide (pos < s.top + s.height)

/-- `updateNavLinks` (script.js lines 172-177): toggle the `active` class
on every link according to whether its href fragment equals the active id. -/
def updateNavLinks (activeId : String) (links : List NavLink) : List NavLink :=
  links.map fun l => { l with active := fragment l.href == activeId }

/-- One iteration of the `forEach` body in `updateActiveNavigation`
(script.js lines 158-169): if the section contains the position and its id
differs from `currentSection`, record it and retoggle the links. -/
def sectionStep (pos : Int) (st : TrackerState) (sec : Section) : TrackerState :=
  if matchesPos pos sec then
    if st.currentSection != sec.id then
      { currentSection := sec.id, navLinks := updateNavLinks sec.id st.navLinks }
    else st
  else st

/-- `updateActiveNavigation` (script.js lines 155-170): compute
`scrollY + CONFIG.navOffset` and run the `forEach` over all sections.
Note the loop has no early exit, so a later matching section overrides
an earlier one. -/
def updateActiveNavigation (scrollY : Int) (sections : List Section)
    (st : TrackerState) : TrackerState :=
  sections.foldl (sectionStep (scrollY + navOffset)) st

/-- Number of links currently carrying the `active` class. -/
def countActive (links : List NavLink) : Nat :=
  (links.filter fun l => l.active).length

/-- The hrefs of a link list (the part of the links the script never
mutates). -/
def hrefs (links : List NavLink) : List String :=
  links.map NavLink.href

/-- Tracker states reachable from page load (the constructor sets
`currentSection = ''`, script.js line 57) by any sequence of scroll
events; the links start with arbitrary `active` flags. -/
inductive Reachable (sections : List Section) (links0 : List NavLink) :
    TrackerState → Prop where
  | init : Reachable sections links0 ⟨"", links0⟩
  | step (y : Int) (st : TrackerState) :
      Reachable sections links0 st →
      Reachable sections links0 (updateActiveNavigation y sections st)

/-- `updateNavLinks` only reads the hrefs of the incoming links. -/
lemma updateNavLinks_eq_map_hrefs (a : String) (ls : List NavLink) :
    updateNavLinks a ls = (hrefs ls).map fun h => ⟨h, fragment h == a⟩ := by
  induction ls with
  | nil => rfl
  | cons l t ih => simp only [updateNavLinks, hrefs, List.map_cons] at ih ⊢; simp [ih]

lemma hrefs_updateNavLinks (a : String) (ls : List NavLink) :
    hrefs (updateNavLinks a ls) = hrefs ls := by
  induction ls with
  | nil => rfl
  | cons l t ih => simp only [updateNavLinks, hrefs, List.map_cons] at ih ⊢; simp [ih]

lemma updateNavLinks_congr {ls ls' : List NavLink} (a : String)
    (h : hrefs ls = hrefs ls') : updateNavLinks a ls = updateNavLinks a ls' := by
  rw [updateNavLinks_eq_map_hrefs, updateNavLinks_eq_map_hrefs, h]

lemma updateNavLinks_idem (a b : String) (ls : List NavLink) :
    updateNavLinks a (updateNavLinks b ls) = updateNavLinks a ls :=
  updateNavLinks_congr a (hrefs_updateNavLinks b ls)

/-- After a retoggle, the number of active links is the number of links
whose fragment is the active id. -/
lemma countActive_updateNavLinks (a : String) (ls : List NavLink) :
    countActive (updateNavLinks a ls) =
      (ls.filter fun l => fragment l.href == a).length := by
  induction ls with
  | nil => rfl
  | cons l t ih =>
    simp only [updateNavLinks, List.map_cons, countActive, List.filter_cons] at ih ⊢
    cases h : (fragment l.href == a) <;> simp [h] at ih ⊢ <;> exact ih

lemma active_of_mem_updateNavLinks {a : String} {ls : List NavLink}
    {l : NavLink} (h : l ∈ updateNavLinks a ls) :
    l.active = (fragment l.href == a) := by
  rcases List.mem_map.mp h with ⟨x, _, rfl⟩
  rfl

/-- The filtered count used for link uniqueness only depends on hrefs. -/
lemma filter_fragment_length_congr {ls ls' : List NavLink} (a : String)
    (h : hrefs ls = hrefs ls') :
    (ls.filter fun l => fragment l.href == a).length =
      (ls'.filter fun l => fragment l.href == a).length := by
  have h1 : ∀ ms : List NavLink,
      (ms.filter fun l => fragment l.href == a).length =
        (hrefs ms).countP (fun s => fragment s == a) := by
    intro ms
    induction ms with
    | nil => rfl
    | cons m t ih =>
      simp only [List.filter_cons, hrefs, List.map_cons, List.countP_cons] at ih ⊢
      cases hm : (fragment m.href == a) <;> simp [hm] at ih ⊢ <;> simpa using ih
  rw [h1, h1, h]

/-- The tracker invariant: either no scroll event has recorded a section
yet (`currentSection` is still the empty string), or the `active` flags
are exactly the ones `updateNavLinks` would produce for `currentSection`. -/
def Consistent (st : TrackerState) : Prop :=
  st.navLinks = updateNavLinks st.currentSection st.navLinks

def Inv (st : TrackerState) : Prop :=
  st.currentSection = "" ∨ Consistent st

lemma sectionStep_inv {pos : Int} {st : TrackerState} (sec : Section)
    (h : Inv st) : Inv (sectionStep pos st sec) := by
  unfold sectionStep
  split
  · split
    · right
      show updateNavLinks sec.id st.navLinks =
        updateNavLinks sec.id (updateNavLinks sec.id st.navLinks)
      rw [updateNavLinks_idem]
    · exact h
  · exact h

lemma sectionStep_hrefs (pos : Int) (st : TrackerState) (sec : Section) :
    hrefs (sectionStep pos st sec).navLinks = hrefs st.navLinks := by
  unfold sectionStep
  split
  · split
    · exact hrefs_updateNavLinks _ _
    · rfl
  · rfl

lemma foldl_sectionStep_inv {pos : Int} {st : TrackerState}
    (l : List Section) (h : Inv st) :
    Inv (List.foldl (sectionStep pos) st l) := by
  induction l generalizing st with
  | nil => exact h
  | cons s t ih => exact ih (sectionStep_inv s h)

lemma foldl_sectionStep_hrefs (pos : Int) (st : TrackerState)
    (l : List Section) :
    hrefs (List.foldl (sectionStep pos) st l).navLinks = hrefs st.navLinks := by
  induction l generalizing st with
  | nil => rfl
  | cons s t ih => rw [List.foldl_cons, ih, sectionStep_hrefs]

lemma foldl_no_match {pos : Int} {st : TrackerState} {l : List Section}
    (h : ∀ s ∈ l, matchesPos pos s = false) :
    List.foldl (sectionStep pos) st l = st := by
  induction l with
  | nil => rfl
  | cons s t ih =>
    rw [List.foldl_cons]
    have hs : matchesPos pos s = false := h s (List.mem_cons_self ..)
    have : sectionStep pos st s = st := by unfold sectionStep; rw [hs]; rfl
    rw [this]
    exact ih fun x hx => h x (List.mem_cons_of_mem _ hx)

/-- Core tracker lemma: if `s` is the last section (in document order)
containing the position, then the handler ends with `currentSection = s.id`
and the links retoggled for `s.id`, regardless of earlier matches. -/
lemma foldl_last_match {pos : Int} {st : TrackerState}
    {l1 l2 : List Section} {s : Section}
    (hinv : Inv st) (hid : s.id ≠ "")
    (hm : matchesPos pos s = true)
    (hl2 : ∀ t ∈ l2, matchesPos pos t = false) :
    List.foldl (sectionStep pos) st (l1 ++ s :: l2) =
      ⟨s.id, updateNavLinks s.id st.navLinks⟩ := by
  rw [List.foldl_append, List.foldl_cons]
  have hinv1 : Inv (List.foldl (sectionStep pos) st l1) :=
    foldl_sectionStep_inv l1 hinv
  have hh : hrefs (List.foldl (sectionStep pos) st l1).navLinks =
      hrefs st.navLinks := foldl_sectionStep_hrefs pos st l1
  set st1 := List.foldl (sectionStep pos) st l1 with hst1
  have hstep : sectionStep pos st1 s = ⟨s.id, updateNavLinks s.id st.navLinks⟩ := by
    unfold sectionStep
    rw [hm]
    by_cases hc : st1.currentSection = s.id
    · have hbe : (st1.currentSection != s.id) = false := by
        simp [hc]
      rw [if_pos rfl, hbe, if_neg (by simp)]
      rcases hinv1 with h0 | hcons
      · exact absurd (h0 ▸ hc) fun h => hid h.symm
      · have : st1 = ⟨st1.currentSection, st1.navLinks⟩ := rfl
        rw [this, hcons, hc]
        exact congrArg _ (updateNavLinks_congr _ hh)
    · have hbe : (st1.currentSection != s.id) = true := by
        simp [hc]
      rw [if_pos rfl, hbe, if_pos rfl]
      exact congrArg _ (updateNavLinks_congr _ hh)
  rw [hstep]
  exact foldl_no_match hl2

lemma reachable_inv {sections : List Section} {links0 : List NavLink}
    {st : TrackerState} (h : Reachable sections links0 st) :
    Inv st ∧ hrefs st.navLinks = hrefs links0 := by
  induction h with
  | init => exact ⟨Or.inl rfl, rfl⟩
  | step y st _ ih =>
    refine ⟨foldl_sectionStep_inv _ ih.1, ?_⟩
    rw [show (updateActiveNavigation y sections st).navLinks =
      (List.foldl (sectionStep (y + navOffset)) st sections).navLinks from rfl,
      foldl_sectionStep_hrefs]
    exact ih.2

/-- C1: for every scroll offset whose computed position
(`scrollY + CONFIG.navOffset`, the quantity the script tests, spec sect. 4.2)
lies in exactly one section's `[top, top + height)` range, running the
scroll handler from any reachable tracker state leaves exactly one NavLink
active, and that link's href fragment is the containing section's id.
Preconditions, as stated by the claim: every section has a (nonempty) id
and exactly one nav link whose href fragment equals that id. -/
theorem c1_unique_match_one_active
    (sections : List Section) (links0 : List NavLink) (st : TrackerState)
    (hreach : Reachable sections links0 st)
    (hid : ∀ s ∈ sections, s.id ≠ "")
    (huniq : ∀ s ∈ sections,
      (links0.filter fun l => fragment l.href == s.id).length = 1)
    (y : Int) (l1 l2 : List Section) (s : Section)
    (hdec : sections = l1 ++ s :: l2)
    (hm : matchesPos (y + navOffset) s = true)
    (_hl1 : ∀ t ∈ l1, matchesPos (y + navOffset) t = false)
    (hl2 : ∀ t ∈ l2, matchesPos (y + navOffset) t = false) :
    countActive (updateActiveNavigation y sections st).navLinks = 1 ∧
    ∀ l ∈ (updateActiveNavigation y sections st).navLinks,
      l.active = true → fragment l.href = s.id := by
  obtain ⟨hinv, hh⟩ := reachable_inv hreach
  have hsmem : s ∈ sections := hdec ▸ List.mem_append_right _ (List.mem_cons_self ..)
  have hrun : updateActiveNavigation y sections st =
      ⟨s.id, updateNavLinks s.id st.navLinks⟩ := by
    unfold updateActiveNavigation
    rw [hdec]
    exact foldl_last_match hinv (hid s hsmem) hm hl2
  constructor
  · rw [hrun]
    show countActive (updateNavLinks s.id st.navLinks) = 1
    rw [countActive_updateNavLinks, filter_fragment_length_congr s.id hh]
    exact huniq s hsmem
  · intro l hl hact
    rw [hrun] at hl
    have := active_of_mem_updateNavLinks hl
    rw [hact] at this
    exact eq_of_beq this.symm

/-- Witness for C1 at a concrete page: one section `home` at `[0, 100)`,
one link `#home`, initial state, scroll offset 0 (position 80). -/
theorem c1_unique_match_one_active_witness :
    countActive (Portfolio.updateActiveNavigation 0 [⟨"home", 0, 100⟩]
      ⟨"", [⟨"#home", false⟩]⟩).navLinks = 1 :=
  (c1_unique_match_one_active [⟨"home", 0, 100⟩] [⟨"#home", false⟩]
    ⟨"", [⟨"#home", false⟩]⟩ Reachable.init (by decide) (by decide)
    0 [] [] ⟨"home", 0, 100⟩ rfl (by decide) (by decide) (by decide)).1

/-- C2 counterexample: the claim says that when several sections contain
the computed position, the FIRST one in document order is selected.  With
two overlapping sections `a` and `b` both containing position 80, the
`forEach` of `updateActiveNavigation` (which has no early exit) processes
both matches, so the handler ends on `b`, the LAST match: the selected id
is not `"a"`, and the `#b` link, not `#a`, is active. -/
theorem c2_first_match_counterexample :
    matchesPos (0 + navOffset) ⟨"a", 0, 200⟩ = true ∧
    matchesPos (0 + navOffset) ⟨"b", 0, 200⟩ = true ∧
    (updateActiveNavigation 0 [⟨"a", 0, 200⟩, ⟨"b", 0, 200⟩]
        ⟨"", [⟨"#a", false⟩, ⟨"#b", false⟩]⟩).currentSection ≠ "a" ∧
    updateActiveNavigation 0 [⟨"a", 0, 200⟩, ⟨"b", 0, 200⟩]
        ⟨"", [⟨"#a", false⟩, ⟨"#b", false⟩]⟩ =
      ⟨"b", [⟨"#a", false⟩, ⟨"#b", true⟩]⟩ := by
  refine ⟨by decide, by decide, ?_, ?_⟩ <;> decide

/-- C2 amended: when the computed position lies inside the ranges of
several sections, the section selected as current is the LAST such
section in document order; the matching NavLink's active flag is set
true and all other NavLinks' active flags are set false.  (`s` below is
the last match: nothing after it matches, while `l1` may contain earlier
matches.) -/
theorem c2_last_match_selected
    (sections : List Section) (links0 : List NavLink) (st : TrackerState)
    (hreach : Reachable sections links0 st)
    (y : Int) (l1 l2 : List Section) (s : Section)
    (hid : s.id ≠ "")
    (hdec : sections = l1 ++ s :: l2)
    (hm : matchesPos (y + navOffset) s = true)
    (hl2 : ∀ t ∈ l2, matchesPos (y + navOffset) t = false) :
    (updateActiveNavigation y sections st).currentSection = s.id ∧
    ∀ l ∈ (updateActiveNavigation y sections st).navLinks,
      l.active = (fragment l.href == s.id) := by
  obtain ⟨hinv, _⟩ := reachable_inv hreach
  have hrun : updateActiveNavigation y sections st =
      ⟨s.id, updateNavLinks s.id st.navLinks⟩ := by
    unfold updateActiveNavigation
    rw [hdec]
    exact foldl_last_match hinv hid hm hl2
  rw [hrun]
  exact ⟨rfl, fun l hl => active_of_mem_updateNavLinks hl⟩

/-- Witness for C2 amended: two overlapping sections, scroll position 80
inside both; the handler selects the last one, `b`. -/
theorem c2_last_match_selected_witness :
    (updateActiveNavigation 0 [⟨"a", 0, 200⟩, ⟨"b", 0, 200⟩]
      ⟨"", [⟨"#a", false⟩, ⟨"#b", false⟩]⟩).currentSection = "b" :=
  (c2_last_match_selected [⟨"a", 0, 200⟩, ⟨"b", 0, 200⟩]
    [⟨"#a", false⟩, ⟨"#b", false⟩] ⟨"", [⟨"#a", false⟩, ⟨"#b", false⟩]⟩
    Reachable.init 0 [⟨"a", 0, 200⟩] [] ⟨"b", 0, 200⟩ (by decide) rfl
    (by decide) (by decide)).1

/-- C5: when no section's `[top, top + height)` range contains the
computed position, the scroll handler leaves the tracker state unchanged:
`currentSection` keeps its previous value and no link's active flag is
modified. -/
theorem c5_no_match_state_unchanged
    (y : Int) (sections : List Section) (st : TrackerState)
    (h : ∀ s ∈ sections, matchesPos (y + navOffset) s = false) :
    updateActiveNavigation y sections st = st :=
  foldl_no_match h

/-- Witness for C5: position 80 lies below the single section `[500, 600)`;
the previously active link stays active and `currentSection` keeps `"p"`. -/
theorem c5_no_match_state_unchanged_witness :
    updateActiveNavigation 0 [⟨"x", 500, 100⟩] ⟨"p", [⟨"#p", true⟩]⟩ =
      ⟨"p", [⟨"#p", true⟩]⟩ :=
  c5_no_match_state_unchanged 0 [⟨"x", 500, 100⟩] ⟨"p", [⟨"#p", true⟩]⟩
    (by decide)

/-! ## Navbar background (script.js lines 179-184)

`updateNavbarBackground` reads `elements.nav.style` without a null guard,
so it is modelled on an `Option`al nav element with an explicit
`Except`: the `none` case is the TypeError the browser raises. -/

/-- The nav element, reduced to the one style property the script writes. -/
structure NavBar where
  background : String
deriving DecidableEq, Repr

/-- `updateNavbarBackground` (script.js lines 179-184):
`elements.nav.style.background = window.scrollY > 50 ? ... : ...`.
There is no `if (elements.nav)` guard, so a missing nav element makes the
property access throw. -/
def updateNavbarBackground (nav : Option NavBar) (scrollY : Int) :
    Except String NavBar :=
  match nav with
  | none => Except.error "TypeError: cannot read style of null"
  | some _ =>
    Except.ok ⟨if 50 < scrollY then "rgba(11, 11, 12, 0.95)"
               else "rgba(11, 11, 12, 0.9)"⟩

/-- C6 (code bug): the spec says every handler no-ops when an expected DOM
element is absent, and the script does guard `contactForm`, `toastClose`,
`aboutText` and click targets; but the scroll handler's
`updateNavbarBackground` dereferences `elements.nav` unguarded, so a
scroll event on a page without the nav element raises a TypeError instead
of skipping.  This theorem evaluates the model at the failing input. -/
theorem c6_navbar_throws_when_nav_absent (scrollY : Int) :
    updateNavbarBackground none scrollY =
      Except.error "TypeError: cannot read style of null" := rfl

/-! ## Field validation (script.js lines 227-273)

JS strings are modelled as Lean `String`s; `trim` and the email regular
expression are implemented structurally on the character list
(`String.data`).  `Char.isWhitespace` models JS `\s` (exact for the ASCII
inputs the page handles). -/

/-- A character JS `trim` / `\s` treats as whitespace. -/
def isWs (c : Char) : Bool := c.isWhitespace

/-- Left trim: drop leading whitespace. -/
def trimLeftChars (l : List Char) : List Char := l.dropWhile isWs

/-- Right trim: drop trailing whitespace. -/
def trimRightChars (l : List Char) : List Char :=
  (l.reverse.dropWhile isWs).reverse

/-- JS `String.prototype.trim` (script.js line 239). -/
def jsTrim (s : String) : String :=
  String.mk (trimRightChars (trimLeftChars s.data))

/-- A character matching the regex class `[^\s@]`. -/
def okChar (c : Char) : Bool := !c.isWhitespace && c != '@'

/-- Split a character list at every occurrence of `sep` (the pieces do
not contain `sep`). -/
def splitChar (sep : Char) : List Char → List (List Char)
  | [] => [[]]
  | c :: cs =>
    let r := splitChar sep cs
    if c = sep then [] :: r
    else
      match r with
      | [] => [[c]]
      | h :: t => (c :: h) :: t

/-- The email test of script.js line 249, the regex
`^[^\s@]+@[^\s@]+\.[^\s@]+$`: the string splits at a unique `@` into a
nonempty whitespace-free local part and a remainder that is
whitespace-free and has a `.` at some interior position (so that both
`[^\s@]+` groups around the `\.` are nonempty; the groups may themselves
contain further dots, which `[^\s@]` allows). -/
def emailMatches (s : String) : Bool :=
  match splitChar '@' s.data with
  | [loc, rest] =>
    !loc.isEmpty && loc.all okChar && rest.all (fun c => !c.isWhitespace) &&
      ((rest.drop 1).dropLast.contains '.')
  | _ => false

/-- `validateField` (script.js lines 238-273), as the error message it
displays: `none` means the field is left valid (any previous error having
been cleared first, line 244), `some msg` means `showFieldError` is called
with `msg`.  The field is `(type attribute, has required attribute, raw
value)`.  Note the `email` branch never consults `required`. -/
def validateField (ftype : String) (required : Bool) (rawValue : String) :
    Option String :=
  let value := jsTrim rawValue
  if ftype == "email" then
    if value != "" && !emailMatches value then
      some "Por favor, insira um e-mail válido"
    else none
  else if ftype == "text" then
    if required && decide (value.length < 2) then
      some "Este campo deve ter pelo menos 2 caracteres"
    else none
  else
    if required && (value == "") then
      some "Este campo é obrigatório"
    else none

/-- Modelled from the spec: the body of `clearFieldError` is not present
under src (script.js is truncated at line 298, before the function's
definition; only its call sites at lines 234 and 244 survive).  Per the
spec (sect. 4.3, "On input: any state → Untouched (clears previously
shown error)"), clearing removes whatever error is displayed. -/
def clearFieldError (_displayed : Option String) : Option String := none

/-- The input listener installed by `setupFormValidation` (script.js
line 234): `input.addEventListener('input', () => this.clearFieldError(input))`.
It runs `clearFieldError` regardless of the field's new value. -/
def onInputEvent (displayed : Option String) (_newValue : String) :
    Option String :=
  clearFieldError displayed

/-- The blur listener installed by `setupFormValidation` (script.js
line 233): it runs `validateField`, which first clears any displayed
error and then shows the new message exactly when validation fails, so
the displayed error after blur is `validateField`'s result. -/
def onBlurEvent (ftype : String) (required : Bool) (value : String) :
    Option String :=
  validateField ftype required value

lemma trimRightChars_eq_rdropWhile (l : List Char) :
    trimRightChars l = List.rdropWhile isWs l := rfl

/-- A list with no leading whitespace still has none after a right trim. -/
lemma trimLeft_of_trimRight {l : List Char} (h : trimLeftChars l = l) :
    trimLeftChars (trimRightChars l) = trimRightChars l := by
  cases l with
  | nil => rfl
  | cons x t =>
    have hx : isWs x = false := by
      cases hx' : isWs x
      · rfl
      · exfalso
        have hlen := congrArg List.length h
        rw [trimLeftChars, List.dropWhile_cons_of_pos hx'] at hlen
        have hle : (t.dropWhile isWs).length ≤ t.length :=
          (List.dropWhile_suffix isWs).length_le
        simp at hlen
        omega
    have hpref : trimRightChars (x :: t) <+: (x :: t) := by
      rw [trimRightChars_eq_rdropWhile]
      exact List.rdropWhile_prefix ..
    obtain ⟨u, hu⟩ := hpref
    cases hr : trimRightChars (x :: t) with
    | nil => rfl
    | cons y t' =>
      rw [hr] at hu
      have hyx : y = x := by
        have := congrArg (List.head?) hu
        simpa using this
      rw [trimLeftChars, List.dropWhile_cons_of_neg (by rw [hyx]; simp [hx])]

/-- JS `trim` is idempotent. -/
lemma jsTrim_idem (s : String) : jsTrim (jsTrim s) = jsTrim s := by
  show String.mk (trimRightChars (trimLeftChars (trimRightChars
      (trimLeftChars s.data)))) = String.mk (trimRightChars (trimLeftChars s.data))
  have h1 : trimLeftChars (trimLeftChars s.data) = trimLeftChars s.data :=
    List.dropWhile_idempotent ..
  rw [trimLeft_of_trimRight h1, trimRightChars_eq_rdropWhile,
    trimRightChars_eq_rdropWhile, List.rdropWhile_idempotent]

/-- C10: field validation is invariant under leading/trailing whitespace:
for every field type, required flag and raw value, `validateField` returns
the same verdict and message on `v` and on `trim(v)`, because every rule
(including the email pattern test) is applied to the trimmed value.  In
particular a padded address like `" a@b.co "` is judged valid on an email
field. -/
theorem c10_validate_trim_invariant :
    (∀ (ftype : String) (required : Bool) (v : String),
      validateField ftype required v = validateField ftype required (jsTrim v)) ∧
    validateField "email" false " a@b.co " = none := by
  constructor
  · intro ftype required v
    simp only [validateField, jsTrim_idem]
  · decide

/-- C4 counterexample: the claim says an empty value on a REQUIRED email
field shows an error, but the `email` branch of `validateField` never
consults the `required` attribute: the blur validation of a required
email field with empty value shows no error. -/
theorem c4_required_empty_email_counterexample :
    validateField "email" true "" = none ∧ jsTrim "" = "" := by
  constructor <;> decide

/-- C4 amended: blur validation of an email field shows an error if and
only if the trimmed value is non-empty and fails the email pattern of
script.js line 249; the `required` attribute is never consulted for email
fields, so an empty value shows no error even on a required field.  In
particular `"a@b.co"` is valid, `"a@b"` is invalid, and an empty value on
a non-required email field shows no error. -/
theorem c4_email_rule_amended :
    (∀ (required : Bool) (v : String),
      (validateField "email" required v ≠ none ↔
        (jsTrim v ≠ "" ∧ emailMatches (jsTrim v) = false))) ∧
    (∀ (r₁ r₂ : Bool) (v : String),
      validateField "email" r₁ v = validateField "email" r₂ v) ∧
    validateField "email" false "a@b.co" = none ∧
    validateField "email" false "a@b" ≠ none ∧
    validateField "email" false "" = none := by
  refine ⟨?_, fun r₁ r₂ v => rfl, by decide, by decide, by decide⟩
  intro required v
  by_cases h1 : jsTrim v = ""
  · simp [validateField, h1]
  · by_cases h2 : emailMatches (jsTrim v) = true
    · simp [validateField, h1, h2]
    · simp [validateField, h1, h2, Bool.not_eq_true _ ▸ h2]

/-- C8: blur validation of a required `text` field shows an error if and
only if the trimmed value has length less than 2 (so `" a "`, trimming to
length 1, is invalid and `"ab"` is valid); blur validation of a required
field of any other non-email type (the `default` branch of the switch)
shows an error if and only if the trimmed value is empty. -/
theorem c8_required_rules
    (ftype : String) (v : String)
    (hne : ftype ≠ "email") (hnt : ftype ≠ "text") :
    (validateField "text" true v ≠ none ↔ (jsTrim v).length < 2) ∧
    (validateField ftype true v ≠ none ↔ jsTrim v = "") ∧
    validateField "text" true " a " ≠ none ∧
    validateField "text" true "ab" = none := by
  refine ⟨?_, ?_, by decide, by decide⟩
  · show (if (true && decide ((jsTrim v).length < 2)) = true then
        some "Este campo deve ter pelo menos 2 caracteres" else none) ≠ none ↔ _
    cases h : decide ((jsTrim v).length < 2) with
    | false => simp_all
    | true => simp_all
  · have h1 : (ftype == "email") = false := by simpa using hne
    have h2 : (ftype == "text") = false := by simpa using hnt
    show (if (ftype == "email") = true then _
        else if (ftype == "text") = true then _
        else if (true && (jsTrim v == "")) = true then
          some "Este campo é obrigatório" else none) ≠ none ↔ _
    rw [h1, h2]
    simp only [Bool.false_eq_true, if_false, Bool.true_and]
    cases h : (jsTrim v == "") with
    | false => simp_all
    | true => simp_all

/-- Witness for C8: the `message` field is a required textarea
(type `"textarea"`, neither email nor text); an all-whitespace value trims
to empty and is rejected. -/
theorem c8_required_rules_witness :
    validateField "textarea" true "  " ≠ none :=
  ((c8_required_rules "textarea" "  " (by decide) (by decide)).2.1).mpr (by decide)

/-- C7: on every input event the displayed error is cleared (the field
returns to the untouched state) regardless of the field's new value; in
particular after a blur with the bad value `"a@b"` shows an email error,
the next input event immediately removes the displayed error. -/
theorem c7_input_clears_error :
    (∀ (displayed : Option String) (newValue : String),
      onInputEvent displayed newValue = none) ∧
    onBlurEvent "email" true "a@b" ≠ none ∧
    (∀ newValue : String,
      onInputEvent (onBlurEvent "email" true "a@b") newValue = none) := by
  exact ⟨fun _ _ => rfl, by decide, fun _ => rfl⟩

/-! ## Rate limiters (script.js lines 15-40)

The wrappers are modelled as runs over a finite, chronologically ordered
list of calls `(time, argument)` with `Date.now()` times in milliseconds.
The event loop is single-threaded: a pending `setTimeout` callback whose
due time has been reached runs before the next incoming call is handled;
a pending callback still outstanding when the call list ends eventually
fires and is flushed at the end of the run.  The output is the list of
`(time, argument)` invocations of the wrapped handler, in order. -/

/-- One incoming call of the throttled wrapper (script.js lines 18-30),
given the closure state `lastExec` (`lastExecTime`, initially 0) and
`pending` (the timestamped argument held by an outstanding `setTimeout`,
if any).  Returns the new state and the handler invocations emitted.
The scheduled fire time is the literal JS expression
`currentTime + (delay - (currentTime - lastExecTime))`. -/
def throttleStep {α : Type} (d : Nat) (lastExec : Nat)
    (pending : Option (Nat × α)) (c : Nat × α) :
    (Nat × Option (Nat × α)) × List (Nat × α) :=
  match pending with
  | some (ft, pa) =>
    if ft ≤ c.1 then
      -- the outstanding timer fired at `ft` before this call arrived;
      -- its callback ran the handler and set lastExecTime := Date.now()
      if d < c.1 - ft then ((c.1, none), [(ft, pa), c])
      else ((ft, some (c.1 + (d - (c.1 - ft)), c.2)), [(ft, pa)])
    else
      -- clearTimeout(timeoutId); setTimeout(..., delay - (currentTime - lastExecTime))
      ((lastExec, some (c.1 + (d - (c.1 - lastExec)), c.2)), [])
  | none =>
    if d < c.1 - lastExec then ((c.1, none), [c])
    else ((lastExec, some (c.1 + (d - (c.1 - lastExec)), c.2)), [])

/-- Run the throttled wrapper over a list of calls, flushing the pending
timer (if any) after the last call. -/
def throttleGo {α : Type} (d : Nat) (lastExec : Nat) (pending : Option (Nat × α)) :
    List (Nat × α) → List (Nat × α)
  | [] =>
    match pending with
    | some p => [p]
    | none => []
  | c :: cs =>
    let r := throttleStep d lastExec pending c
    r.2 ++ throttleGo d r.1.1 r.1.2 cs

/-- `throttle(func, delay)` (script.js lines 15-31): the wrapper starts
with `lastExecTime = 0` and no outstanding timer. -/
def throttleRun {α : Type} (d : Nat) (calls : List (Nat × α)) : List (Nat × α) :=
  throttleGo d 0 none calls

/-- One incoming call of the debounced wrapper (script.js lines 36-39):
an outstanding timer whose due time has been reached fired already
(its invocation is emitted); otherwise `clearTimeout` discards it.
Either way the call re-arms the timer for `t + delay` with its argument. -/
def debounceStep {α : Type} (d : Nat) (pending : Option (Nat × α)) (c : Nat × α) :
    Option (Nat × α) × List (Nat × α) :=
  match pending with
  | some (ft, pa) =>
    if ft ≤ c.1 then (some (c.1 + d, c.2), [(ft, pa)])
    else (some (c.1 + d, c.2), [])
  | none => (some (c.1 + d, c.2), [])

/-- Run the debounced wrapper over a list of calls, flushing the pending
timer after the last call. -/
def debounceGo {α : Type} (d : Nat) (pending : Option (Nat × α)) :
    List (Nat × α) → List (Nat × α)
  | [] =>
    match pending with
    | some p => [p]
    | none => []
  | c :: cs =>
    let r := debounceStep d pending c
    r.2 ++ debounceGo d r.1 cs

/-- `debounce(func, delay)` (script.js lines 34-40). -/
def debounceRun {α : Type} (d : Nat) (calls : List (Nat × α)) : List (Nat × α) :=
  debounceGo d none calls

/-- Call times are strictly increasing. -/
def strictIncr {α : Type} : List (Nat × α) → Bool
  | [] => true
  | [_] => true
  | a :: b :: l => decide (a.1 < b.1) && strictIncr (b :: l)

/-- Consecutive entries are at least `d` apart ("at most once per
`d`-window"). -/
def spaced {α : Type} (d : Nat) : List (Nat × α) → Bool
  | [] => true
  | [_] => true
  | a :: b :: l => decide (a.1 + d ≤ b.1) && spaced d (b :: l)

/-- All the calls after one at time `tp` belong to the same burst: each
arrives strictly after, but strictly within `d` of, its predecessor. -/
def inBurstAfter {α : Type} (d tp : Nat) : List (Nat × α) → Bool
  | [] => true
  | c :: cs => (decide (tp < c.1) && decide (c.1 < tp + d)) && inBurstAfter d c.1 cs

/-- Within a burst, each call cancels the outstanding timer and re-arms
it for its own time plus the delay; the whole burst therefore produces
exactly one invocation, `d` after the burst's last call and with its
argument, after which processing of the remaining calls starts afresh. -/
lemma debounceGo_burst {α : Type} (d : Nat) :
    ∀ (rest : List (Nat × α)) (B2 : List (Nat × α)) (tp : Nat) (ap : α),
      inBurstAfter d tp rest = true →
      (∀ c ∈ B2.head?, (rest.getLastD (tp, ap)).1 + d ≤ c.1) →
      debounceGo d (some (tp + d, ap)) (rest ++ B2) =
        ((rest.getLastD (tp, ap)).1 + d, (rest.getLastD (tp, ap)).2) ::
          debounceGo d none B2 := by
  intro rest
  induction rest with
  | nil =>
    intro B2 tp ap _ hB2
    cases B2 with
    | nil => rfl
    | cons c cs =>
      have hc : tp + d ≤ c.1 := by simpa using hB2 c rfl
      simp only [List.nil_append, List.getLastD, debounceGo, debounceStep,
        if_pos hc]
      rfl
  | cons r rest' ih =>
    intro B2 tp ap hb hB2
    have hb1 : r.1 < tp + d := by
      simp only [inBurstAfter, Bool.and_eq_true, decide_eq_true_eq] at hb
      exact hb.1.2
    have hb2 : inBurstAfter d r.1 rest' = true := by
      simp only [inBurstAfter, Bool.and_eq_true] at hb
      exact hb.2
    have hnot : ¬ (tp + d ≤ r.1) := by omega
    show (debounceStep d (some (tp + d, ap)) r).2 ++ _ = _
    simp only [debounceStep, if_neg hnot, List.nil_append]
    rw [List.getLastD_cons]
    rw [List.getLastD_cons] at hB2
    exact ih B2 r.1 r.2 hb2 hB2

/-- C9: the debounced wrapper runs the handler exactly once per burst,
`d` after the burst's last call and with that call's arguments: a leading
burst `b0 :: rest` (each call strictly within `d` of its predecessor —
such calls cancel and restart the timer) contributes exactly one
invocation at `lastCall.1 + d` with `lastCall.2`, and the rest of the
input (`B2`, whose first call arrives once that timer has fired) is
processed independently.  With `B2 = []` this is the single-burst law;
instantiated at calls t = 0, 10, 20 and `d = 50` it fires exactly once,
at t = 70 (see the witness). -/
theorem c9_debounce_once_per_burst {α : Type} (d : Nat) (b0 : Nat × α)
    (rest B2 : List (Nat × α))
    (hb : inBurstAfter d b0.1 rest = true)
    (hB2 : ∀ c ∈ B2.head?, (rest.getLastD b0).1 + d ≤ c.1) :
    debounceRun d ((b0 :: rest) ++ B2) =
      ((rest.getLastD b0).1 + d, (rest.getLastD b0).2) :: debounceRun d B2 := by
  obtain ⟨t0, a0⟩ := b0
  show (debounceStep d none (t0, a0)).2 ++ _ = _
  simp only [debounceStep, List.nil_append]
  exact debounceGo_burst d rest B2 t0 a0 hb hB2

/-- Witness for C9, the spec's example: calls at t = 0, 10, 20 with
delay 50 fire the handler exactly once, at t = 70, with the last call's
argument. -/
theorem c9_debounce_once_per_burst_witness :
    debounceRun 50 [(0, 0), (10, 1), (20, 2)] = [(70, 2)] := by
  have h := c9_debounce_once_per_burst 50 ((0 : Nat), (0 : Nat))
    [(10, 1), (20, 2)] [] (by decide) (by simp)
  simpa using h

lemma strictIncr_cons {α : Type} {c : Nat × α} {cs : List (Nat × α)}
    (h : strictIncr (c :: cs) = true) :
    strictIncr cs = true ∧ ∀ c' ∈ cs.head?, c.1 < c'.1 := by
  cases cs with
  | nil => exact ⟨rfl, by simp⟩
  | cons b l =>
    simp only [strictIncr, Bool.and_eq_true, decide_eq_true_eq] at h
    refine ⟨h.2, ?_⟩
    intro c' hc'
    simp only [List.head?_cons, Option.mem_def, Option.some.injEq] at hc'
    exact hc' ▸ h.1

lemma spaced_cons {α : Type} {d : Nat} {x : Nat × α} {l : List (Nat × α)}
    (hl : spaced d l = true) (hx : ∀ y ∈ l.head?, x.1 + d ≤ y.1) :
    spaced d (x :: l) = true := by
  cases l with
  | nil => rfl
  | cons b t =>
    simp only [spaced, Bool.and_eq_true, decide_eq_true_eq]
    exact ⟨by simpa using hx b rfl, hl⟩

/-- The JS reschedule expression
`currentTime + (delay - (currentTime - lastExecTime))` equals
`lastExecTime + delay` whenever the call falls inside the window. -/
lemma sched_time_eq {t le d : Nat} (h1 : le ≤ t) (h2 : t ≤ le + d) :
    t + (d - (t - le)) = le + d := by omega

/-- Throttle spacing: starting from a state whose outstanding timer (if
any) is due exactly at `lastExec + d`, the emitted invocations are at
least `d` apart, and the first of them is not before `lastExec + d`. -/
lemma throttleGo_spaced {α : Type} (d : Nat) :
    ∀ (calls : List (Nat × α)) (le : Nat) (pend : Option (Nat × α)),
      strictIncr calls = true →
      (∀ p ∈ pend, p.1 = le + d) →
      (∀ c ∈ calls.head?, le ≤ c.1) →
      spaced d (throttleGo d le pend calls) = true ∧
        ∀ e ∈ (throttleGo d le pend calls).head?, le + d ≤ e.1 := by
  intro calls
  induction calls with
  | nil =>
    intro le pend _ hpend _
    cases pend with
    | none => exact ⟨rfl, by simp [throttleGo]⟩
    | some p =>
      refine ⟨rfl, ?_⟩
      intro e he
      simp only [throttleGo, List.head?_cons, Option.mem_def,
        Option.some.injEq] at he
      rw [← he]
      exact le_of_eq (hpend p rfl).symm
  | cons c cs ih =>
    intro le pend hinc hpend hhead
    have hle : le ≤ c.1 := by simpa using hhead c rfl
    obtain ⟨hinc', hnext⟩ := strictIncr_cons hinc
    have hnext' : ∀ c' ∈ cs.head?, c.1 ≤ c'.1 :=
      fun c' hc' => Nat.le_of_lt (hnext c' hc')
    cases pend with
    | none =>
      by_cases h : d < c.1 - le
      · have hgo : throttleGo d le none (c :: cs) =
            c :: throttleGo d c.1 none cs := by
          simp only [throttleGo, throttleStep]
          rw [if_pos h]
          rfl
        rw [hgo]
        obtain ⟨hsp, hhd⟩ := ih c.1 none hinc' (by simp) hnext'
        refine ⟨spaced_cons hsp ?_, ?_⟩
        · intro y hy
          exact Nat.le_trans (by omega) (hhd y hy)
        · intro e he
          simp only [List.head?_cons, Option.mem_def, Option.some.injEq] at he
          rw [← he]
          omega
      · have hsch : c.1 + (d - (c.1 - le)) = le + d :=
          sched_time_eq hle (by omega)
        have hgo : throttleGo d le none (c :: cs) =
            throttleGo d le (some (le + d, c.2)) cs := by
          simp only [throttleGo, throttleStep]
          rw [if_neg h, hsch]
          simp
        rw [hgo]
        exact ih le (some (le + d, c.2)) hinc' (by simp)
          (fun c' hc' => Nat.le_trans hle (hnext' c' hc'))
    | some p =>
      obtain ⟨ft, pa⟩ := p
      have hft : ft = le + d := hpend (ft, pa) rfl
      by_cases h1 : ft ≤ c.1
      · by_cases h2 : d < c.1 - ft
        · have hgo : throttleGo d le (some (ft, pa)) (c :: cs) =
              (ft, pa) :: c :: throttleGo d c.1 none cs := by
            simp only [throttleGo, throttleStep]
            rw [if_pos h1, if_pos h2]
            simp
          rw [hgo]
          obtain ⟨hsp, hhd⟩ := ih c.1 none hinc' (by simp) hnext'
          refine ⟨spaced_cons (spaced_cons hsp ?_) ?_, ?_⟩
          · intro y hy
            exact Nat.le_trans (by omega) (hhd y hy)
          · intro y hy
            simp only [List.head?_cons, Option.mem_def, Option.some.injEq] at hy
            rw [← hy]
            omega
          · intro e he
            simp only [List.head?_cons, Option.mem_def, Option.some.injEq] at he
            rw [← he]
            omega
        · have hsch : c.1 + (d - (c.1 - ft)) = ft + d :=
            sched_time_eq h1 (by omega)
          have hgo : throttleGo d le (some (ft, pa)) (c :: cs) =
              (ft, pa) :: throttleGo d ft (some (ft + d, c.2)) cs := by
            simp only [throttleGo, throttleStep]
            rw [if_pos h1, if_neg h2, hsch]
            simp
          rw [hgo]
          obtain ⟨hsp, hhd⟩ := ih ft (some (ft + d, c.2)) hinc' (by simp)
            (fun c' hc' => Nat.le_trans h1 (hnext' c' hc'))
          refine ⟨spaced_cons hsp hhd, ?_⟩
          intro e he
          simp only [List.head?_cons, Option.mem_def, Option.some.injEq] at he
          rw [← he]
          omega
      · have hsch : c.1 + (d - (c.1 - le)) = le + d :=
          sched_time_eq hle (by omega)
        have hgo : throttleGo d le (some (ft, pa)) (c :: cs) =
            throttleGo d le (some (le + d, c.2)) cs := by
          simp only [throttleGo, throttleStep]
          rw [if_neg h1, hsch]
          simp
        rw [hgo]
        exact ih le (some (le + d, c.2)) hinc' (by simp)
          (fun c' hc' => Nat.le_trans hle (hnext' c' hc'))

/-- Throttle trailing guarantee: on a nonempty call list, the last
emitted invocation carries the last call's argument and happens no
earlier than that call and no later than `d` after it — a mid-window
final call is deferred to the window's end, never dropped. -/
lemma throttleGo_last {α : Type} (d : Nat) :
    ∀ (cs : List (Nat × α)) (c : Nat × α) (le : Nat) (pend : Option (Nat × α)),
      strictIncr (c :: cs) = true →
      (∀ p ∈ pend, p.1 = le + d) →
      le ≤ c.1 →
      ∃ T, (throttleGo d le pend (c :: cs)).getLast? = some (T, (cs.getLastD c).2) ∧
        (cs.getLastD c).1 ≤ T ∧ T ≤ (cs.getLastD c).1 + d := by
  intro cs
  induction cs with
  | nil =>
    intro c le pend _ hpend hle
    rw [show (([] : List (Nat × α)).getLastD c) = c from rfl]
    cases pend with
    | none =>
      by_cases h : d < c.1 - le
      · refine ⟨c.1, ?_, Nat.le_refl _, Nat.le_add_right ..⟩
        have hgo : throttleGo d le none [c] = [c] := by
          simp only [throttleGo, throttleStep]
          rw [if_pos h]
          rfl
        rw [hgo]
        rfl
      · have hsch : c.1 + (d - (c.1 - le)) = le + d :=
          sched_time_eq hle (by omega)
        refine ⟨le + d, ?_, by omega, by omega⟩
        have hgo : throttleGo d le none [c] = [(le + d, c.2)] := by
          simp only [throttleGo, throttleStep]
          rw [if_neg h, hsch]
          rfl
        rw [hgo]
        rfl
    | some p =>
      obtain ⟨ft, pa⟩ := p
      have hft : ft = le + d := hpend (ft, pa) rfl
      by_cases h1 : ft ≤ c.1
      · by_cases h2 : d < c.1 - ft
        · refine ⟨c.1, ?_, Nat.le_refl _, Nat.le_add_right ..⟩
          have hgo : throttleGo d le (some (ft, pa)) [c] = [(ft, pa), c] := by
            simp only [throttleGo, throttleStep]
            rw [if_pos h1, if_pos h2]
            rfl
          rw [hgo]
          simp
        · have hsch : c.1 + (d - (c.1 - ft)) = ft + d :=
            sched_time_eq h1 (by omega)
          refine ⟨ft + d, ?_, by omega, by omega⟩
          have hgo : throttleGo d le (some (ft, pa)) [c] =
              [(ft, pa), (ft + d, c.2)] := by
            simp only [throttleGo, throttleStep]
            rw [if_pos h1, if_neg h2, hsch]
            rfl
          rw [hgo]
          simp
      · have hsch : c.1 + (d - (c.1 - le)) = le + d :=
          sched_time_eq hle (by omega)
        refine ⟨le + d, ?_, by omega, by omega⟩
        have hgo : throttleGo d le (some (ft, pa)) [c] = [(le + d, c.2)] := by
          simp only [throttleGo, throttleStep]
          rw [if_neg h1, hsch]
          rfl
        rw [hgo]
        rfl
  | cons c' cs' ih =>
    intro c le pend hinc hpend hle
    obtain ⟨hinc', hnext⟩ := strictIncr_cons hinc
    have hcc' : c.1 < c'.1 := by simpa using hnext c' rfl
    rw [List.getLastD_cons]
    have step : ∀ (out1 : List (Nat × α)) (le' : Nat) (pend' : Option (Nat × α)),
        throttleGo d le pend (c :: c' :: cs') =
          out1 ++ throttleGo d le' pend' (c' :: cs') →
        (∀ p ∈ pend', p.1 = le' + d) → le' ≤ c'.1 →
        ∃ T, (throttleGo d le pend (c :: c' :: cs')).getLast?
            = some (T, (cs'.getLastD c').2) ∧
          (cs'.getLastD c').1 ≤ T ∧ T ≤ (cs'.getLastD c').1 + d := by
      intro out1 le' pend' hgo hpend' hle'
      obtain ⟨T, hT, hb1, hb2⟩ := ih c' le' pend' hinc' hpend' hle'
      refine ⟨T, ?_, hb1, hb2⟩
      rw [hgo, List.getLast?_append, hT]
      rfl
    cases pend with
    | none =>
      by_cases h : d < c.1 - le
      · exact step [c] c.1 none
          (by simp only [throttleGo, throttleStep]; rw [if_pos h])
          (by simp) (Nat.le_of_lt hcc')
      · have hsch : c.1 + (d - (c.1 - le)) = le + d :=
          sched_time_eq hle (by omega)
        exact step [] le (some (le + d, c.2))
          (by simp only [throttleGo, throttleStep]; rw [if_neg h, hsch])
          (by simp) (by omega)
    | some p =>
      obtain ⟨ft, pa⟩ := p
      have hft : ft = le + d := hpend (ft, pa) rfl
      by_cases h1 : ft ≤ c.1
      · by_cases h2 : d < c.1 - ft
        · exact step [(ft, pa), c] c.1 none
            (by simp only [throttleGo, throttleStep]; rw [if_pos h1, if_pos h2])
            (by simp) (Nat.le_of_lt hcc')
        · have hsch : c.1 + (d - (c.1 - ft)) = ft + d :=
            sched_time_eq h1 (by omega)
          exact step [(ft, pa)] ft (some (ft + d, c.2))
            (by simp only [throttleGo, throttleStep]; rw [if_pos h1, if_neg h2, hsch])
            (by simp) (by omega)
      · have hsch : c.1 + (d - (c.1 - le)) = le + d :=
          sched_time_eq hle (by omega)
        exact step [] le (some (le + d, c.2))
          (by simp only [throttleGo, throttleStep]; rw [if_neg h1, hsch])
          (by simp) (by omega)

/-- When the clock at the first call exceeds the delay — always the case
in the browser, where `Date.now()` is epoch milliseconds and
`lastExecTime` starts at 0 — the first call executes immediately. -/
lemma throttleRun_first {α : Type} (d : Nat) (c0 : Nat × α)
    (cs : List (Nat × α)) (h : d < c0.1) :
    throttleRun d (c0 :: cs) = c0 :: throttleGo d c0.1 none cs := by
  show throttleGo d 0 none (c0 :: cs) = _
  simp only [throttleGo, throttleStep]
  rw [if_pos (by omega : d < c0.1 - 0)]
  rfl

/-- C3 counterexample: for the spec's scenario — calls at relative times
0, 5, 10, 60 ms with delay 50 (absolute times 1000..1060, the clock being
epoch milliseconds) — the claim predicts the handler fires at t = 0 and
at roughly t = 60 only.  The code instead fires three times, at relative
t = 0, 50 and 100: the deferred call fires at the window's end t = 50
(not 60), and the call at t = 60, falling within 50 ms of that execution,
is deferred again to t = 100.  No firing occurs within 5 ms of
relative t = 60. -/
theorem c3_throttle_counterexample :
    (throttleRun 50 [(1000, 0), (1005, 1), (1010, 2), (1060, 3)]).map Prod.fst =
      [1000, 1050, 1100] ∧
    (throttleRun 50 [(1000, 0), (1005, 1), (1010, 2), (1060, 3)]).length = 3 ∧
    ((throttleRun 50 [(1000, 0), (1005, 1), (1010, 2), (1060, 3)]).map Prod.fst).all
      (fun t => decide (t < 1055) || decide (1065 < t)) = true := by
  refine ⟨by decide, by decide, by decide⟩

/-- C3 amended: for every handler, delay `d` and strictly increasing call
sequence whose first call's clock value exceeds `d` (always true in the
browser, where the clock is epoch milliseconds and `lastExecTime` starts
at 0), the throttled wrapper runs the handler immediately on the first
call and at most once per `d`-window thereafter (consecutive executions
are at least `d` apart); a call arriving mid-window is deferred, with the
latest arguments, and the final call is never dropped: the last execution
carries the last call's argument and occurs between that call's time and
`d` after it.  In the spec's scenario (calls at relative t = 0, 5, 10, 60
with `d = 50`) the handler fires at t = 0, t = 50 (with the t = 10 call's
argument) and t = 100 (with the t = 60 call's argument) — not at 5 or 10,
but three times, not the two the original claim stated. -/
theorem c3_throttle_amended :
    (∀ (α : Type) (d : Nat) (c0 : Nat × α) (cs : List (Nat × α)),
      strictIncr (c0 :: cs) = true → d < c0.1 →
      (throttleRun d (c0 :: cs)).head? = some c0 ∧
      spaced d (throttleRun d (c0 :: cs)) = true ∧
      ∃ T, (throttleRun d (c0 :: cs)).getLast? = some (T, (cs.getLastD c0).2) ∧
        (cs.getLastD c0).1 ≤ T ∧ T ≤ (cs.getLastD c0).1 + d) ∧
    throttleRun 50 [(1000, 0), (1005, 1), (1010, 2), (1060, 3)] =
      [(1000, 0), (1050, 2), (1100, 3)] := by
  constructor
  · intro α d c0 cs hinc h0
    refine ⟨?_, ?_, ?_⟩
    · rw [throttleRun_first d c0 cs h0]
      rfl
    · exact (throttleGo_spaced d (c0 :: cs) 0 none hinc (by simp) (by simp)).1
    · exact throttleGo_last d cs c0 0 none hinc (by simp) (Nat.zero_le _)
  · decide

/-- Witness for C3 amended, instantiating the general law at the concrete
scenario: the first execution is the first call, executions are at least
50 ms apart, and the trace is the corrected three-firing one. -/
theorem c3_throttle_amended_witness :
    (throttleRun 50 [(1000, (0 : Nat)), (1005, 1), (1010, 2), (1060, 3)]).head? =
        some (1000, 0) ∧
    spaced 50 (throttleRun 50 [(1000, (0 : Nat)), (1005, 1), (1010, 2), (1060, 3)]) =
        true := by
  have h := c3_throttle_amended.1 Nat 50 (1000, 0) [(1005, 1), (1010, 2), (1060, 3)]
    (by decide) (by decide)
  exact ⟨h.1, h.2.1⟩

end Portfolio
